import Mathlib

/-!
Verification of the transformation-selection and argument-resolution engine
of the sublimetext-Pandoc plugin (src/Pandoc.py), as a shallow embedding.

Tokens of the converter command line are plain strings; the `Args` list
subclass of the source becomes the type `List String` with the operations
`Args.get` and `Args.remove` translated from `Args.get` / `Args.remove`
in Pandoc.py.  The regular expressions of the source,
  `^-(k1|k2|...)$`      (short flags) and
  `^--(k1|k2|...)=(.+)$` (long flags),
are anchored whole-token patterns over literal spellings; they are embedded
as exact token equality with `-k`, resp. as a literal prefix `--k=` followed
by a non-empty remainder, trying the spellings in list order exactly as the
regex alternation does.  (Pythons `$` would additionally tolerate one
trailing newline at the end of a token; argument tokens are newline-free in
every use of these patterns, and that quirk is not modelled.)
-/

namespace Pandoc

/-- Splits a literal prefix off a list of characters, returning the
remainder when the prefix is present. -/
def chopPre : List Char → List Char → Option (List Char)
  | [], s => some s
  | _, [] => none
  | c :: p, d :: s => if c = d then chopPre p s else none

/-- Embedding of the short-flag regex `^-(k1|k2|...)$` of Pandoc.py:
the token is exactly `-k` for one of the spellings `k`. -/
def shortMatch (ss : List String) (arg : String) : Bool :=
  ss.any (fun k => arg == "-" ++ k)

/-- One alternative of the long-flag regex: token is `--k=v` with `v`
non-empty, returning `v` (the greedy `(.+)$` group). -/
def longMatch1 (k arg : String) : Option String :=
  match chopPre ("--" ++ k ++ "=").data arg.data with
  | some [] => none
  | some rest => some (String.mk rest)
  | none => none

/-- Embedding of the long-flag regex `^--(k1|k2|...)=(.+)$` of Pandoc.py:
alternatives are tried in list order, as the regex engine does. -/
def longMatch (ls : List String) (arg : String) : Option String :=
  match ls with
  | [] => none
  | k :: rest =>
    match longMatch1 k arg with
    | some v => some v
    | none => longMatch rest arg

/-- Short-flag match against an optional spelling list (`short=None` in the
source means: do not match this style). -/
def shortMatchO : Option (List String) → String → Bool
  | some ss, arg => shortMatch ss arg
  | none, _ => false

/-- Long-flag match against an optional spelling list. -/
def longMatchO : Option (List String) → String → Option String
  | some ls, arg => longMatch ls arg
  | none, _ => none

/-- Loop of `Args.get` from Pandoc.py, with the boolean `value` state
(`pending`) that marks that the previous token was a matched short flag. -/
def getAux (short long : Option (List String)) : List String → Bool → Option String
  | [], _ => none
  | arg :: rest, pending =>
    match short with
    | some ss =>
      if pending then some arg
      else if shortMatch ss arg then getAux short long rest true
      else
        match longMatchO long arg with
        | some v => some v
        | none => getAux short long rest pending
    | none =>
      match longMatchO long arg with
      | some v => some v
      | none => getAux short long rest pending

/-- `Args.get` of Pandoc.py: the first value for an argument. -/
def Args.get (args : List String) (short long : Option (List String)) : Option String :=
  getAux short long args false

/-- Loop of `Args.remove` from Pandoc.py, with the same pending state. -/
def removeAux (short long values : Option (List String)) : List String → Bool → List String
  | [], _ => []
  | arg :: rest, pending =>
    match short with
    | some ss =>
      if pending then
        match values with
        | some vs =>
          if vs.contains arg then removeAux short long values rest false
          else arg :: removeAux short long values rest false
        | none => removeAux short long values rest false
      else if shortMatch ss arg then removeAux short long values rest true
      else
        match longMatchO long arg with
        | some _ => removeAux short long values rest pending
        | none => arg :: removeAux short long values rest pending
    | none =>
      match longMatchO long arg with
      | some _ => removeAux short long values rest pending
      | none => arg :: removeAux short long values rest pending

/-- `Args.remove` of Pandoc.py: remove all matching arguments, building a
new vector (the receiver is never mutated; here the function is pure). -/
def Args.remove (args : List String) (short long values : Option (List String)) : List String :=
  removeAux short long values args false

/-!
Spec-side restatements of `get` and `remove`, written from the contract in
section 4.1 of the spec: a left-to-right scan in which a matched short flag
immediately yields the next token (if any), a matched long flag immediately
yields its value portion, and everything else is scanned past.  These
recursions carry no pending state; the refinement theorems below show the
state-machine loops of the source compute exactly these functions.
-/

/-- Spec reading of `get`: first match wins; a short flag yields the next
token (none when the flag ends the vector); a long flag yields its value. -/
def getSpec (short long : Option (List String)) : List String → Option String
  | [] => none
  | arg :: rest =>
    if shortMatchO short arg then rest.head?
    else
      match longMatchO long arg with
      | some v => some v
      | none => getSpec short long rest

/-- Whether the token following a matched short flag is kept by `remove`:
only when a values filter is supplied and the token is not in it. -/
def keepValue (values : Option (List String)) (v : String) : Bool :=
  match values with
  | some vs => !(vs.contains v)
  | none => false

/-- Spec reading of `remove`: a matched short flag is dropped together with
its following token (the follower kept only per `keepValue`, and never
re-examined as a flag); matched long tokens are dropped entirely; everything
else passes through in order. -/
def removeSpec (short long values : Option (List String)) : List String → List String
  | [] => []
  | arg :: rest =>
    if shortMatchO short arg then
      match rest with
      | [] => []
      | v :: rest2 =>
        if keepValue values v then v :: removeSpec short long values rest2
        else removeSpec short long values rest2
    else
      match longMatchO long arg with
      | some _ => removeSpec short long values rest
      | none => arg :: removeSpec short long values rest

/-- State of `removeSpec` right after a matched short flag: the next token
is treated as that flag's value. -/
def pendStep (short long values : Option (List String)) : List String → List String
  | [] => []
  | v :: rest =>
    if keepValue values v then v :: removeSpec short long values rest
    else removeSpec short long values rest

lemma getAux_pending (ss : List String) (long : Option (List String)) :
    ∀ args : List String, getAux (some ss) long args true = args.head? := by
  intro args
  cases args with
  | nil => rfl
  | cons a rest => simp [getAux]

lemma getAux_noshort (long : Option (List String)) :
    ∀ (args : List String) (pending : Bool),
      getAux none long args pending = getSpec none long args := by
  intro args
  induction args with
  | nil => intro pending; rfl
  | cons a rest ih =>
    intro pending
    simp only [getAux, getSpec, shortMatchO, Bool.false_eq_true, if_false]
    cases longMatchO long a with
    | some v => simp
    | none => simpa using ih pending

lemma get_eq_spec (args : List String) (short long : Option (List String)) :
    Args.get args short long = getSpec short long args := by
  cases short with
  | none => exact getAux_noshort long args false
  | some ss =>
    unfold Args.get
    induction args with
    | nil => rfl
    | cons a rest ih =>
      simp only [getAux, getSpec, shortMatchO]
      by_cases h : shortMatch ss a
      · simp [h, getAux_pending]
      · simp only [h, if_false]
        cases longMatchO long a with
        | some v => simp
        | none => simpa using ih

lemma removeAux_noshort (long values : Option (List String)) :
    ∀ (args : List String) (pending : Bool),
      removeAux none long values args pending = removeSpec none long values args := by
  intro args
  induction args with
  | nil => intro pending; rfl
  | cons a rest ih =>
    intro pending
    rw [removeAux.eq_def, removeSpec.eq_def]
    cases h2 : longMatchO long a with
    | some v => simp [shortMatchO, h2, ih pending]
    | none => simp [shortMatchO, h2, ih pending]

lemma removeAux_short (ss : List String) (long values : Option (List String)) :
    ∀ args : List String,
      removeAux (some ss) long values args false = removeSpec (some ss) long values args
      ∧ removeAux (some ss) long values args true = pendStep (some ss) long values args := by
  intro args
  induction args with
  | nil => exact ⟨rfl, rfl⟩
  | cons a rest ih =>
    constructor
    · rw [removeAux.eq_def, removeSpec.eq_def]
      by_cases h : shortMatch ss a
      · cases rest with
        | nil => simp [shortMatchO, h, removeAux]
        | cons v rest2 => simpa [shortMatchO, h, pendStep] using ih.2
      · cases h2 : longMatchO long a with
        | some v => simp [shortMatchO, h, h2, ih.1]
        | none => simp [shortMatchO, h, h2, ih.1]
    · rw [removeAux.eq_def]
      cases values with
      | none => simp [pendStep, keepValue, ih.1]
      | some vs =>
        by_cases h : vs.contains a
        · simp [pendStep, keepValue, h, ih.1]
        · simp [pendStep, keepValue, h, ih.1]

lemma remove_eq_spec (args : List String) (short long values : Option (List String)) :
    Args.remove args short long values = removeSpec short long values args := by
  cases short with
  | none => exact removeAux_noshort long values args false
  | some ss => exact (removeAux_short ss long values args).1

/-!
Cleanliness: tokens that match neither flag style, and argument vectors in
which no matched short flag is immediately followed by a token that itself
looks like a flag (so no flag token stands in value position).
-/

/-- A token matching neither the short nor the long flag pattern. -/
abbrev cleanTok (short long : Option (List String)) (x : String) : Prop :=
  shortMatchO short x = false ∧ longMatchO long x = none

/-- No token of the vector that immediately follows a short-flag token is
itself a short or long flag: flag value positions hold no flag tokens. -/
def noFlagValues (short long : Option (List String)) : List String → Bool
  | [] => true
  | a :: rest =>
    (if shortMatchO short a then
        match rest with
        | [] => true
        | b :: _ => !(shortMatchO short b) && (longMatchO long b).isNone
      else true)
    && noFlagValues short long rest

/-- The head of the vector, when present, is clean. -/
def headClean (short long : Option (List String)) : List String → Prop
  | [] => True
  | b :: _ => cleanTok short long b

lemma removeAux_clean_noshort (long values : Option (List String)) :
    ∀ (args : List String) (pending : Bool),
      ∀ x ∈ removeAux none long values args pending, cleanTok none long x := by
  intro args
  induction args with
  | nil => intro pending x hx; cases hx
  | cons a rest ih =>
    intro pending x hx
    rw [removeAux.eq_def] at hx
    cases h2 : longMatchO long a with
    | some v =>
      simp only [h2] at hx
      exact ih pending x hx
    | none =>
      simp only [h2, List.mem_cons] at hx
      rcases hx with rfl | hx
      · exact ⟨rfl, h2⟩
      · exact ih pending x hx

lemma removeAux_clean_short (ss : List String) (long values : Option (List String)) :
    ∀ (args : List String) (pending : Bool),
      noFlagValues (some ss) long args = true →
      (pending = true → headClean (some ss) long args) →
      ∀ x ∈ removeAux (some ss) long values args pending, cleanTok (some ss) long x := by
  intro args
  induction args with
  | nil => intro pending _ _ x hx; cases hx
  | cons a rest ih =>
    intro pending hnfv hpend x hx
    have hnfv2 : noFlagValues (some ss) long rest = true := by
      have := hnfv
      simp only [noFlagValues, Bool.and_eq_true] at this
      exact this.2
    rw [removeAux.eq_def] at hx
    cases pending with
    | true =>
      have hca : cleanTok (some ss) long a := hpend rfl
      simp only [if_true, reduceIte] at hx
      cases values with
      | none =>
        simp only at hx
        exact ih false hnfv2 (fun h => absurd h (by simp)) x hx
      | some vs =>
        by_cases hmem : vs.contains a
        · simp only [hmem, if_true, reduceIte] at hx
          exact ih false hnfv2 (fun h => absurd h (by simp)) x hx
        · simp only [hmem, Bool.false_eq_true, if_false, List.mem_cons] at hx
          rcases hx with rfl | hx
          · exact hca
          · exact ih false hnfv2 (fun h => absurd h (by simp)) x hx
    | false =>
      by_cases h : shortMatch ss a
      · simp only [Bool.false_eq_true, if_false, h, if_true, reduceIte] at hx
        have hhead : headClean (some ss) long rest := by
          have := hnfv
          simp only [noFlagValues, Bool.and_eq_true, shortMatchO, h, if_true, reduceIte] at this
          cases rest with
          | nil => trivial
          | cons b rest2 =>
            have hb := this.1
            simp only [Bool.and_eq_true, Bool.not_eq_true', Option.isNone_iff_eq_none] at hb
            exact ⟨hb.1, hb.2⟩
        exact ih true hnfv2 (fun _ => hhead) x hx
      · simp only [Bool.false_eq_true, if_false, h, reduceIte] at hx
        cases h2 : longMatchO long a with
        | some v =>
          simp only [h2] at hx
          exact ih false hnfv2 (fun h => absurd h (by simp)) x hx
        | none =>
          simp only [h2, List.mem_cons] at hx
          rcases hx with rfl | hx
          · exact ⟨by simpa [shortMatchO] using h, h2⟩
          · exact ih false hnfv2 (fun h => absurd h (by simp)) x hx

/-- Every token of a `remove` result is clean, provided no flag token of
the input stood in value position. -/
lemma remove_clean (args : List String) (short long values : Option (List String))
    (h : noFlagValues short long args = true) :
    ∀ x ∈ Args.remove args short long values, cleanTok short long x := by
  cases short with
  | none => exact removeAux_clean_noshort long values args false
  | some ss =>
    exact removeAux_clean_short ss long values args false h (fun h => absurd h (by simp))

/-- With no values filter, every token of a `remove` result is clean,
unconditionally: every value token is dropped together with its flag. -/
lemma removeAux_none_clean (short long : Option (List String)) :
    ∀ (args : List String) (pending : Bool),
      ∀ x ∈ removeAux short long none args pending, cleanTok short long x := by
  intro args
  induction args with
  | nil => intro pending x hx; cases hx
  | cons a rest ih =>
    intro pending x hx
    rw [removeAux.eq_def] at hx
    cases short with
    | none =>
      cases h2 : longMatchO long a with
      | some v =>
        simp only [h2] at hx
        exact ih pending x hx
      | none =>
        simp only [h2, List.mem_cons] at hx
        rcases hx with rfl | hx
        · exact ⟨rfl, h2⟩
        · exact ih pending x hx
    | some ss =>
      cases pending with
      | true =>
        simp only [if_true, reduceIte] at hx
        exact ih false x hx
      | false =>
        by_cases h : shortMatch ss a
        · simp only [Bool.false_eq_true, if_false, h, if_true, reduceIte] at hx
          exact ih true x hx
        · simp only [Bool.false_eq_true, if_false, h, reduceIte] at hx
          cases h2 : longMatchO long a with
          | some v =>
            simp only [h2] at hx
            exact ih false x hx
          | none =>
            simp only [h2, List.mem_cons] at hx
            rcases hx with rfl | hx
            · exact ⟨by simpa [shortMatchO] using h, h2⟩
            · exact ih false x hx

/-- `remove` is the identity on a vector of clean tokens. -/
lemma removeAux_id (short long values : Option (List String)) :
    ∀ args : List String, (∀ x ∈ args, cleanTok short long x) →
      removeAux short long values args false = args := by
  intro args
  induction args with
  | nil => intro _; rfl
  | cons a rest ih =>
    intro h
    have ha := h a (List.mem_cons_self a rest)
    have hrest : ∀ x ∈ rest, cleanTok short long x :=
      fun x hx => h x (List.mem_cons_of_mem a hx)
    rw [removeAux.eq_def]
    cases short with
    | none => simp [ha.2, ih hrest]
    | some ss =>
      have hs : shortMatch ss a = false := by simpa [shortMatchO] using ha.1
      simp [hs, ha.2, ih hrest]

/-- `get` finds nothing in a vector of clean tokens. -/
lemma getAux_none_of_clean (short long : Option (List String)) :
    ∀ args : List String, (∀ x ∈ args, cleanTok short long x) →
      getAux short long args false = none := by
  intro args
  induction args with
  | nil => intro _; rfl
  | cons a rest ih =>
    intro h
    have ha := h a (List.mem_cons_self a rest)
    have hrest : ∀ x ∈ rest, cleanTok short long x :=
      fun x hx => h x (List.mem_cons_of_mem a hx)
    rw [getAux.eq_def]
    cases short with
    | none => simp [ha.2, ih hrest]
    | some ss =>
      have hs : shortMatch ss a = false := by simpa [shortMatchO] using ha.1
      simp [hs, ha.2, ih hrest]

/-- A short flag ending the vector sets the pending state on the last
iteration step, and that state is discarded when iteration ends; with no
earlier match, `get` therefore returns nothing. -/
lemma get_trailing_none (short long : Option (List String)) :
    ∀ (start : List String) (lastTok : String),
      shortMatchO short lastTok = true →
      (∀ x ∈ start, cleanTok short long x) →
      Args.get (start ++ [lastTok]) short long = none := by
  intro start lastTok hmatch hclean
  cases short with
  | none => simp [shortMatchO] at hmatch
  | some ss =>
    unfold Args.get
    induction start with
    | nil =>
      rw [getAux.eq_def]
      simp only [shortMatchO] at hmatch
      simp [hmatch, getAux]
    | cons a rest ih =>
      have ha := hclean a (List.mem_cons_self a rest)
      have hs : shortMatch ss a = false := by simpa [shortMatchO] using ha.1
      rw [getAux.eq_def]
      simp only [List.cons_append]
      simp [hs, ha.2, ih (fun x hx => hclean x (List.mem_cons_of_mem a hx))]

/-!
The executor, `PandocCommand.run` of Pandoc.py.  A `Transformation` is the
configured definition the command receives; the content-type scoring
function of the host editor (`view.score_selector(0, sel)`) is an oracle
`score : String → Nat`; `formatFile` is the configured
`pandoc-format-file` list; `tmpName` stands for the fresh temporary file
name; the external converter is an oracle mapping the full command line and
the document text to the pair (standard output, diagnostic output).

Failure to bind an input format in the scope loop of the source leaves the
local `iformat` unassigned and the subsequent use raises; this terminal
failure is modelled as `PandocError.noScopeMatch`.  A non-empty diagnostic
stream aborts the run before any buffer is touched, modelled as
`PandocError.conversion` carrying the invoked command line and the
diagnostic text (the source formats both into the user-visible message).
The buffer mutations of a successful run are recorded as an explicit list
of `BufferEffect`s; an aborted run produces no such list.  The best-effort
viewer-open side effect of file-output formats is outside the claims and
not modelled.
-/

structure Transformation where
  scope : List (String × String)
  pandocArguments : List String
  newBuffer : Bool
  synFile : String
deriving DecidableEq

inductive PandocError where
  | noScopeMatch
  | conversion (cmd : List String) (diagnostic : String)
deriving DecidableEq

inductive BufferEffect where
  | newFile
  | replaceAll (intoNewBuffer : Bool) (text : String)
  | setSyn (file : String)
deriving DecidableEq

/-- Scope loop of `PandocCommand.run` (lines 93-99 of Pandoc.py): running
threshold `s` starts at 0, the bound format `best` starts unbound, and an
entry replaces the bound format exactly when its score strictly exceeds
the threshold. -/
def resolveAux (score : String → Nat) : List (String × String) → Nat → Option String → Option String
  | [], _, best => best
  | (sel, fmt) :: rest, s, best =>
    if score sel ≤ s then resolveAux score rest s best
    else resolveAux score rest (score sel) (some fmt)

/-- Input-format resolution of the executor. -/
def resolveFrom (score : String → Nat) (scope : List (String × String)) : Option String :=
  resolveAux score scope 0 none

/-- Generic running maximum of `f` over a list, seeded with `v`. -/
def maxFold (f : α → Nat) (l : List α) (v : Nat) : Nat :=
  l.foldl (fun m x => max m (f x)) v

/-- Spec reading of input-format resolution: the format bound to the
highest-scoring selector, ties keeping the first entry seen, unbound (a
terminal failure) when no selector scores above zero — in particular when
the scope is empty. -/
def resolveSpec (score : String → Nat) (scope : List (String × String)) : Option String :=
  if maxFold (fun p => score p.1) scope 0 = 0 then none
  else (scope.find? (fun p => score p.1 == maxFold (fun q => score q.1) scope 0)).map Prod.snd

/-- Argument-vector pipeline of the executor (lines 102-123 of Pandoc.py):
read the output format, strip it when it is `pdf`, and inject an output
path for file-output formats lacking one. -/
def finalArgs (t : Transformation) (formatFile : List String) (tmpName : String) : List String :=
  let args0 := t.pandocArguments
  let oformat := Args.get args0 (some ["t", "w"]) (some ["to", "write"])
  let args1 := if oformat = some "pdf"
    then Args.remove args0 (some ["t", "w"]) (some ["to", "write"]) (some ["pdf"])
    else args0
  match oformat with
  | some f =>
    if formatFile.contains f then
      match Args.get args1 (some ["o"]) (some ["output"]) with
      | some _ => args1
      | none => args1 ++ ["-o", tmpName ++ "." ++ f]
    else args1
  | none => args1

/-- The full command line handed to the converter: the executable, the
`-f` flag with the resolved input format, then the processed arguments.
When no input format resolves, the run fails before any command exists. -/
def buildCmd (pandoc : String) (score : String → Nat) (t : Transformation)
    (formatFile : List String) (tmpName : String) : Except PandocError (List String) :=
  match resolveFrom score t.scope with
  | none => Except.error PandocError.noScopeMatch
  | some f => Except.ok (pandoc :: "-f" :: f :: finalArgs t formatFile tmpName)

lemma maxFold_cons (f : α → Nat) (x : α) (l : List α) (v : Nat) :
    maxFold f (x :: l) v = maxFold f l (max v (f x)) := rfl

lemma maxFold_ge (f : α → Nat) : ∀ (l : List α) (v : Nat), v ≤ maxFold f l v := by
  intro l
  induction l with
  | nil => intro v; exact le_refl v
  | cons x xs ih =>
    intro v
    exact le_trans (Nat.le_max_left v (f x)) (ih (max v (f x)))

lemma maxFold_mem (f : α → Nat) :
    ∀ (l : List α) (v : Nat), maxFold f l v = v ∨ ∃ x ∈ l, f x = maxFold f l v := by
  intro l
  induction l with
  | nil => intro v; exact Or.inl rfl
  | cons x xs ih =>
    intro v
    rw [maxFold_cons]
    rcases ih (max v (f x)) with h0 | ⟨y, hy, hym⟩
    · rw [h0]
      rcases max_choice v (f x) with hm | hm
      · exact Or.inl hm
      · exact Or.inr ⟨x, List.mem_cons_self x xs, hm.symm⟩
    · exact Or.inr ⟨y, List.mem_cons_of_mem x hy, hym⟩

lemma find?_congr (p q : α → Bool) :
    ∀ l : List α, (∀ x ∈ l, p x = q x) → l.find? p = l.find? q := by
  intro l
  induction l with
  | nil => intro _; rfl
  | cons x xs ih =>
    intro h
    have hx := h x (List.mem_cons_self x xs)
    cases hq : q x with
    | true =>
      rw [List.find?_cons_of_pos _ (by rw [hx, hq]), List.find?_cons_of_pos _ hq]
    | false =>
      rw [List.find?_cons_of_neg _ (by simp [hx, hq]), List.find?_cons_of_neg _ (by simp [hq])]
      exact ih (fun y hy => h y (List.mem_cons_of_mem x hy))

/-- The first entry of `scope` satisfying `pred`, when one exists; `best`
otherwise. -/
def firstHit (scope : List (String × String)) (pred : String × String → Bool)
    (best : Option String) : Option String :=
  match scope.find? pred with
  | some p => some p.2
  | none => best

/-- Characterization of the scope loop: starting from threshold `s` and
bound format `best`, the loop returns the format of the first entry whose
score both exceeds `s` and equals the running maximum; when no entry does,
the initial binding survives. -/
lemma resolveAux_eq (score : String → Nat) :
    ∀ (scope : List (String × String)) (s : Nat) (best : Option String),
      resolveAux score scope s best
        = firstHit scope
            (fun p => decide (s < score p.1)
              && (score p.1 == maxFold (fun q => score q.1) scope s)) best := by
  intro scope
  induction scope with
  | nil => intro s best; rfl
  | cons e rest ih =>
    intro s best
    obtain ⟨sel, fmt⟩ := e
    have hM : maxFold (fun q => score q.1) ((sel, fmt) :: rest) s
        = maxFold (fun q => score q.1) rest (max s (score sel)) := rfl
    by_cases hle : score sel ≤ s
    · have hmax : max s (score sel) = s := Nat.max_eq_left hle
      have hnotlt : ¬ s < score sel := not_lt.mpr hle
      rw [resolveAux, if_pos hle, ih s best]
      unfold firstHit
      rw [hM, hmax, List.find?_cons_of_neg _ (by simp [hnotlt])]
    · have hlt : s < score sel := not_le.mp hle
      have hmax : max s (score sel) = score sel := Nat.max_eq_right (le_of_lt hlt)
      rw [resolveAux, if_neg hle, ih (score sel) (some fmt)]
      unfold firstHit
      rw [hM, hmax]
      set M := maxFold (fun q => score q.1) rest (score sel) with hMdef
      have hcM : score sel ≤ M := maxFold_ge _ rest (score sel)
      by_cases heq : score sel = M
      · rw [List.find?_cons_of_pos _ (by simp [← heq, hlt])]
        have : rest.find? (fun p => decide (score sel < score p.1) && (score p.1 == M)) = none := by
          rw [List.find?_eq_none]
          intro p _
          simp only [Bool.and_eq_true, decide_eq_true_eq, beq_iff_eq, not_and]
          intro hplt hpm
          rw [hpm, ← heq] at hplt
          exact lt_irrefl _ hplt
        rw [this]
      · have hcMlt : score sel < M := lt_of_le_of_ne hcM heq
        rw [List.find?_cons_of_neg _ (by simp [heq])]
        have hcong : rest.find? (fun p => decide (score sel < score p.1) && (score p.1 == M))
            = rest.find? (fun p => decide (s < score p.1) && (score p.1 == M)) := by
          apply find?_congr
          intro p _
          by_cases hpm : score p.1 = M
          · simp [hpm, hcMlt, lt_trans hlt hcMlt]
          · have hb : (score p.1 == M) = false := by simpa using hpm
            simp [hb]
        rw [hcong]
        have hex : ∃ p ∈ rest, (decide (s < score p.1) && (score p.1 == M)) = true := by
          rcases maxFold_mem (fun q => score q.1) rest (score sel) with h0 | ⟨p, hp, hpm⟩
          · exact absurd h0.symm (ne_of_lt hcMlt)
          · exact ⟨p, hp, by simp [hpm, lt_trans hlt hcMlt]⟩
        have hsome : (rest.find? (fun p => decide (s < score p.1) && (score p.1 == M))).isSome := by
          rw [List.find?_isSome]
          exact hex
        obtain ⟨q, hq⟩ := Option.isSome_iff_exists.mp hsome
        rw [hq]

/-- The scope loop agrees with the declarative first-maximum rule. -/
lemma resolveFrom_eq_spec (score : String → Nat) (scope : List (String × String)) :
    resolveFrom score scope = resolveSpec score scope := by
  unfold resolveFrom resolveSpec
  rw [resolveAux_eq score scope 0 none]
  set M := maxFold (fun q => score q.1) scope 0 with hMdef
  by_cases hM : M = 0
  · unfold firstHit
    have : scope.find? (fun p => decide (0 < score p.1) && (score p.1 == M)) = none := by
      rw [List.find?_eq_none]
      intro p _
      simp only [Bool.and_eq_true, decide_eq_true_eq, beq_iff_eq, not_and]
      intro hplt hpm
      rw [hpm, hM] at hplt
      exact lt_irrefl _ hplt
    rw [this, if_pos hM]
  · rw [if_neg hM]
    have : scope.find? (fun p => decide (0 < score p.1) && (score p.1 == M))
        = scope.find? (fun p => score p.1 == M) := by
      apply find?_congr
      intro p _
      by_cases hpm : score p.1 = M
      · simp [hpm, Nat.pos_of_ne_zero hM]
      · simp [hpm]
    unfold firstHit
    rw [this]
    cases scope.find? (fun p => score p.1 == M) with
    | some p => rfl
    | none => rfl

/-!
The ranker, `PromptPandocCommand.transformations` of Pandoc.py.  The
settings mapping of transformation name to definition is an ordered
association list with unique names (a Python dict); each definition
contributes the list of selectors of its scope.  The `ranked` dict of the
source is an insertion-ordered association list: writing to an absent key
appends, writing to a present key updates in place.
-/

abbrev Ranked := List (String × Nat)

/-- Python dict read: the value stored at `l`, when present. -/
def dictGet : Ranked → String → Option Nat
  | [], _ => none
  | (k, v) :: rest, l => if k = l then some v else dictGet rest l

/-- Python dict write, insertion-ordered: update in place when the key is
present, append otherwise. -/
def dictSet : Ranked → String → Nat → Ranked
  | [], l, s => [(l, s)]
  | (k, v) :: rest, l, s => if k = l then (l, s) :: rest else (k, v) :: dictSet rest l s

/-- Body of the inner loop of the ranker (lines 51-56 of Pandoc.py): skip a
zero score, otherwise store it when the label is new or beaten. -/
def scoreStep (score : String → Nat) (label : String) (ranked : Ranked) (sel : String) : Ranked :=
  if score sel = 0 then ranked
  else
    match dictGet ranked label with
    | none => dictSet ranked label (score sel)
    | some old => if old < score sel then dictSet ranked label (score sel) else ranked

/-- One transformation's pass over its scope selectors. -/
def rankTrans (score : String → Nat) (ranked : Ranked) (p : String × List String) : Ranked :=
  p.2.foldl (scoreStep score p.1) ranked

/-- The `ranked` dict after the full double loop of the ranker. -/
def rankedOf (score : String → Nat) (ts : List (String × List String)) : Ranked :=
  ts.foldl (rankTrans score) []

/-- Stable ascending insertion by score: a new element passes every entry
of equal or smaller score, so equal scores keep first-come-first order. -/
def insertAsc (x : String × Nat) : Ranked → Ranked
  | [] => [x]
  | y :: ys => if x.2 < y.2 then x :: y :: ys else y :: insertAsc x ys

/-- The stable ascending sort by score (Python `sorted` with `key=t[1]`). -/
def sortAsc (l : Ranked) : Ranked :=
  l.foldl (fun acc x => insertAsc x acc) []

/-- `PromptPandocCommand.transformations`: rank, fail on an empty dict
(the `NoMatchError` message), else sort ascending stably, keep the labels,
and reverse. -/
def transformations (score : String → Nat) (ts : List (String × List String)) :
    Option (List String) :=
  if rankedOf score ts = [] then none
  else some (((sortAsc (rankedOf score ts)).map Prod.fst).reverse)

/-- Spec reading of the best score of a transformation: the maximum of the
scores of its selectors, zero-scoring selectors skipped. -/
def bestScore (score : String → Nat) (scopes : List String) : Nat :=
  ((scopes.filter (fun sel => score sel != 0)).map score).foldl max 0

/-- The transformations retaining at least one non-zero-scoring selector. -/
def keptTs (score : String → Nat) (ts : List (String × List String)) :
    List (String × List String) :=
  ts.filter (fun p => p.2.any (fun sel => score sel != 0))

/-- The retained transformations, each paired with its best score, in
mapping order. -/
def keptRanked (score : String → Nat) (ts : List (String × List String)) : Ranked :=
  (keptTs score ts).map (fun p => (p.1, bestScore score p.2))

/-- Spec reading of the ranker: fail when no transformation retains a
non-zero score, else stably sort the retained names ascending by best
score and reverse. -/
def rankerSpec (score : String → Nat) (ts : List (String × List String)) :
    Option (List String) :=
  if keptTs score ts = [] then none
  else some (((sortAsc (keptRanked score ts)).map Prod.fst).reverse)

/-- The key list of an association list. -/
def keys (d : Ranked) : List String := d.map Prod.fst

lemma dictGet_eq_none (l : String) : ∀ d : Ranked, l ∉ keys d → dictGet d l = none := by
  intro d
  induction d with
  | nil => intro _; rfl
  | cons e rest ih =>
    obtain ⟨k, v⟩ := e
    intro h
    simp only [keys, List.map_cons, List.mem_cons, not_or] at h
    rw [dictGet, if_neg (fun he => h.1 he.symm)]
    exact ih (by simpa [keys] using h.2)

lemma dictSet_absent (l : String) (s : Nat) :
    ∀ d : Ranked, l ∉ keys d → dictSet d l s = d ++ [(l, s)] := by
  intro d
  induction d with
  | nil => intro _; rfl
  | cons e rest ih =>
    obtain ⟨k, v⟩ := e
    intro h
    simp only [keys, List.map_cons, List.mem_cons, not_or] at h
    rw [dictSet, if_neg (fun he => h.1 he.symm), List.cons_append]
    rw [ih (by simpa [keys] using h.2)]

lemma dictGet_present (l : String) (v : Nat) :
    ∀ (d₁ : Ranked) (d₂ : Ranked), l ∉ keys d₁ →
      dictGet (d₁ ++ (l, v) :: d₂) l = some v := by
  intro d₁
  induction d₁ with
  | nil => intro d₂ _; simp [dictGet]
  | cons e rest ih =>
    obtain ⟨k, w⟩ := e
    intro d₂ h
    simp only [keys, List.map_cons, List.mem_cons, not_or] at h
    rw [List.cons_append, dictGet, if_neg (fun he => h.1 he.symm)]
    exact ih d₂ (by simpa [keys] using h.2)

lemma dictSet_present (l : String) (v s : Nat) :
    ∀ (d₁ : Ranked) (d₂ : Ranked), l ∉ keys d₁ →
      dictSet (d₁ ++ (l, v) :: d₂) l s = d₁ ++ (l, s) :: d₂ := by
  intro d₁
  induction d₁ with
  | nil => intro d₂ _; simp [dictSet]
  | cons e rest ih =>
    obtain ⟨k, w⟩ := e
    intro d₂ h
    simp only [keys, List.map_cons, List.mem_cons, not_or] at h
    rw [List.cons_append, dictSet, if_neg (fun he => h.1 he.symm), List.cons_append]
    rw [ih d₂ (by simpa [keys] using h.2)]

/-- Inner ranker loop over the remaining selectors, when the label is
already stored with value `v`: the stored value becomes the running
maximum seeded with `v`, and the entry keeps its position. -/
lemma rankScopes_present (score : String → Nat) (l : String) :
    ∀ (scopes : List String) (v : Nat) (d₁ d₂ : Ranked), l ∉ keys d₁ →
      scopes.foldl (scoreStep score l) (d₁ ++ (l, v) :: d₂)
        = d₁ ++ (l, maxFold score scopes v) :: d₂ := by
  intro scopes
  induction scopes with
  | nil => intro v d₁ d₂ _; rfl
  | cons sel rest ih =>
    intro v d₁ d₂ h
    rw [List.foldl_cons, maxFold_cons]
    by_cases h0 : score sel = 0
    · have hstep : scoreStep score l (d₁ ++ (l, v) :: d₂) sel = d₁ ++ (l, v) :: d₂ := by
        rw [scoreStep, if_pos h0]
      rw [hstep, ih v d₁ d₂ h, h0, Nat.max_zero]
    · have hget := dictGet_present l v d₁ d₂ h
      by_cases hlt : v < score sel
      · have hstep : scoreStep score l (d₁ ++ (l, v) :: d₂) sel = d₁ ++ (l, score sel) :: d₂ := by
          rw [scoreStep, if_neg h0, hget]
          simp only [hlt, if_true, reduceIte]
          exact dictSet_present l v (score sel) d₁ d₂ h
        rw [hstep, ih (score sel) d₁ d₂ h, Nat.max_eq_right (le_of_lt hlt)]
      · have hstep : scoreStep score l (d₁ ++ (l, v) :: d₂) sel = d₁ ++ (l, v) :: d₂ := by
          rw [scoreStep, if_neg h0, hget]
          simp [hlt]
        rw [hstep, ih v d₁ d₂ h, Nat.max_eq_left (not_lt.mp hlt)]

/-- Inner ranker loop when the label is absent: nothing is stored when no
selector scores, else the entry is appended with the maximum score. -/
lemma rankScopes_absent (score : String → Nat) (l : String) :
    ∀ (scopes : List String) (d : Ranked), l ∉ keys d →
      scopes.foldl (scoreStep score l) d
        = if maxFold score scopes 0 = 0 then d
          else d ++ [(l, maxFold score scopes 0)] := by
  intro scopes
  induction scopes with
  | nil => intro d h; simp [maxFold]
  | cons sel rest ih =>
    intro d h
    rw [List.foldl_cons, maxFold_cons]
    by_cases h0 : score sel = 0
    · have hstep : scoreStep score l d sel = d := by rw [scoreStep, if_pos h0]
      rw [hstep, ih d h, h0, Nat.max_zero]
    · have hget : dictGet d l = none := dictGet_eq_none l d h
      have hstep : scoreStep score l d sel = d ++ [(l, score sel)] := by
        rw [scoreStep, if_neg h0, hget]
        exact dictSet_absent l (score sel) d h
      rw [hstep, Nat.zero_max]
      have hpres := rankScopes_present score l rest (score sel) d [] h
      rw [show d ++ [(l, score sel)] = d ++ (l, score sel) :: [] from rfl, hpres]
      have hne : maxFold score rest (score sel) ≠ 0 := by
        intro hz
        exact h0 (Nat.le_zero.mp (hz ▸ maxFold_ge score rest (score sel)))
      rw [if_neg hne]

lemma maxFold_zero_iff (f : α → Nat) :
    ∀ (l : List α) (v : Nat), maxFold f l v = 0 ↔ v = 0 ∧ ∀ x ∈ l, f x = 0 := by
  intro l
  induction l with
  | nil => intro v; simp [maxFold]
  | cons x xs ih =>
    intro v
    rw [maxFold_cons, ih (max v (f x))]
    constructor
    · rintro ⟨hm, hall⟩
      rcases Nat.max_eq_zero_iff.mp hm with ⟨hv, hx⟩
      refine ⟨hv, fun y hy => ?_⟩
      rcases List.mem_cons.mp hy with rfl | hy
      · exact hx
      · exact hall y hy
    · rintro ⟨hv, hall⟩
      exact ⟨Nat.max_eq_zero_iff.mpr ⟨hv, hall x (List.mem_cons_self x xs)⟩,
        fun y hy => hall y (List.mem_cons_of_mem x hy)⟩

lemma any_ne_zero_iff (score : String → Nat) (scopes : List String) :
    (scopes.any fun sel => score sel != 0) = true ↔ maxFold score scopes 0 ≠ 0 := by
  rw [List.any_eq_true]
  constructor
  · rintro ⟨sel, hmem, hne⟩ hz
    have hzero : score sel = 0 := ((maxFold_zero_iff score scopes 0).mp hz).2 sel hmem
    have hne2 : score sel ≠ 0 := by simpa using hne
    exact hne2 hzero
  · intro h
    by_contra hno
    push_neg at hno
    exact h ((maxFold_zero_iff score scopes 0).mpr
      ⟨rfl, fun x hx => by simpa using hno x hx⟩)

lemma bestScore_eq_maxFold (score : String → Nat) :
    ∀ (scopes : List String) (v : Nat),
      ((scopes.filter fun sel => score sel != 0).map score).foldl max v
        = maxFold score scopes v := by
  intro scopes
  induction scopes with
  | nil => intro v; rfl
  | cons sel rest ih =>
    intro v
    rw [maxFold_cons, List.filter_cons]
    by_cases h0 : score sel = 0
    · have hb : (score sel != 0) = false := by simp [h0]
      rw [hb, h0, Nat.max_zero]
      simpa using ih v
    · have hb : (score sel != 0) = true := by simpa using h0
      rw [hb]
      simp only [if_true, reduceIte, List.map_cons, List.foldl_cons]
      exact ih (max v (score sel))

lemma bestScore_eq (score : String → Nat) (scopes : List String) :
    bestScore score scopes = maxFold score scopes 0 :=
  bestScore_eq_maxFold score scopes 0

/-- The full double loop of the ranker, run from any dict whose keys avoid
the remaining transformation names: it appends exactly the retained
transformations, each with its best score, in mapping order. -/
lemma rankedOf_go (score : String → Nat) :
    ∀ (ts : List (String × List String)) (d : Ranked),
      (∀ p ∈ ts, p.1 ∉ keys d) → (ts.map Prod.fst).Nodup →
      ts.foldl (rankTrans score) d = d ++ keptRanked score ts := by
  intro ts
  induction ts with
  | nil => intro d _ _; simp [keptRanked, keptTs]
  | cons p rest ih =>
    intro d hd hnd
    have hp1 : p.1 ∉ keys d := hd p (List.mem_cons_self p rest)
    have hnd2 : (p.1 :: rest.map Prod.fst).Nodup := by simpa using hnd
    have hpfst : p.1 ∉ rest.map Prod.fst := (List.nodup_cons.mp hnd2).1
    have hndtail : (rest.map Prod.fst).Nodup := (List.nodup_cons.mp hnd2).2
    rw [List.foldl_cons]
    have habs := rankScopes_absent score p.1 p.2 d hp1
    by_cases hM : maxFold score p.2 0 = 0
    · have hstep : rankTrans score d p = d := by rw [rankTrans, habs, if_pos hM]
      rw [hstep, ih d (fun q hq => hd q (List.mem_cons_of_mem p hq)) hndtail]
      have hany : (p.2.any fun sel => score sel != 0) = false :=
        Bool.eq_false_iff.mpr (fun hc => (any_ne_zero_iff score p.2).mp hc hM)
      congr 1
      unfold keptRanked keptTs
      rw [List.filter_cons, hany]
      simp
    · have hstep : rankTrans score d p = d ++ [(p.1, maxFold score p.2 0)] := by
        rw [rankTrans, habs, if_neg hM]
      rw [hstep]
      have hd2 : ∀ q ∈ rest, q.1 ∉ keys (d ++ [(p.1, maxFold score p.2 0)]) := by
        intro q hq
        simp only [keys, List.map_append, List.mem_append, List.map_cons, List.map_nil,
          List.mem_cons, List.not_mem_nil, or_false, not_or]
        constructor
        · exact hd q (List.mem_cons_of_mem p hq)
        · intro he
          exact hpfst (he ▸ List.mem_map_of_mem Prod.fst hq)
      rw [ih _ hd2 hndtail, List.append_assoc]
      have hany : (p.2.any fun sel => score sel != 0) = true :=
        (any_ne_zero_iff score p.2).mpr hM
      congr 1
      unfold keptRanked keptTs
      rw [List.filter_cons, hany]
      simp [bestScore_eq score p.2]

/-- Under a well-formed mapping (unique names), the ranked dict lists the
retained transformations with their best scores, in mapping order. -/
lemma rankedOf_eq (score : String → Nat) (ts : List (String × List String))
    (hnd : (ts.map Prod.fst).Nodup) :
    rankedOf score ts = keptRanked score ts := by
  have h := rankedOf_go score ts [] (by intro p _; simp [keys]) hnd
  simpa [rankedOf] using h

lemma mem_insertAsc (x : String × Nat) :
    ∀ (l : Ranked) (z : String × Nat), z ∈ insertAsc x l ↔ z = x ∨ z ∈ l := by
  intro l
  induction l with
  | nil => intro z; simp [insertAsc]
  | cons y ys ih =>
    intro z
    rw [insertAsc]
    by_cases h : x.2 < y.2
    · rw [if_pos h]
      simp [List.mem_cons]
    · rw [if_neg h]
      simp only [List.mem_cons, ih z]
      tauto

lemma sorted_insertAsc (x : String × Nat) :
    ∀ l : Ranked, l.Pairwise (fun a b => a.2 ≤ b.2) →
      (insertAsc x l).Pairwise (fun a b => a.2 ≤ b.2) := by
  intro l
  induction l with
  | nil => intro _; exact List.pairwise_singleton _ x
  | cons y ys ih =>
    intro hp
    rcases List.pairwise_cons.mp hp with ⟨hy, hys⟩
    rw [insertAsc]
    by_cases h : x.2 < y.2
    · rw [if_pos h]
      refine List.pairwise_cons.mpr ⟨?_, hp⟩
      intro z hz
      rcases List.mem_cons.mp hz with rfl | hz
      · exact le_of_lt h
      · exact le_trans (le_of_lt h) (hy z hz)
    · rw [if_neg h]
      refine List.pairwise_cons.mpr ⟨?_, ih hys⟩
      intro z hz
      rcases (mem_insertAsc x ys z).mp hz with rfl | hz
      · exact not_lt.mp h
      · exact hy z hz

lemma filter_gt_nil (k : Nat) :
    ∀ l : Ranked, (∀ z ∈ l, k < z.2) → l.filter (fun p => p.2 == k) = [] := by
  intro l
  induction l with
  | nil => intro _; rfl
  | cons y ys ih =>
    intro h
    have hy : (y.2 == k) = false := by
      simpa using (Nat.ne_of_gt (h y (List.mem_cons_self y ys)))
    rw [List.filter_cons, hy]
    simpa using ih (fun z hz => h z (List.mem_cons_of_mem y hz))

/-- Stability of the ascending insertion: the new element lands after all
equal scores already present (given a sorted accumulator). -/
lemma filter_insertAsc (k : Nat) (x : String × Nat) :
    ∀ l : Ranked, l.Pairwise (fun a b => a.2 ≤ b.2) →
      (insertAsc x l).filter (fun p => p.2 == k)
        = if x.2 == k then l.filter (fun p => p.2 == k) ++ [x]
          else l.filter (fun p => p.2 == k) := by
  intro l
  induction l with
  | nil =>
    intro _
    by_cases h : (x.2 == k) = true <;> simp [insertAsc, List.filter_cons, h]
  | cons y ys ih =>
    intro hp
    rcases List.pairwise_cons.mp hp with ⟨hy, hys⟩
    rw [insertAsc]
    by_cases h : x.2 < y.2
    · rw [if_pos h]
      by_cases hxk : (x.2 == k) = true
      · have hk : x.2 = k := by simpa using hxk
        have hnil : (y :: ys).filter (fun p => p.2 == k) = [] := by
          apply filter_gt_nil
          intro z hz
          rcases List.mem_cons.mp hz with rfl | hz
          · rw [← hk]; exact h
          · rw [← hk]; exact lt_of_lt_of_le h (hy z hz)
        rw [List.filter_cons, hnil, hxk]
        simp
      · rw [List.filter_cons]
        simp only [hxk, Bool.false_eq_true, if_false, reduceIte]
    · rw [if_neg h]
      rw [List.filter_cons, List.filter_cons, ih hys]
      by_cases hyk : (y.2 == k) = true <;> by_cases hxk : (x.2 == k) = true <;>
        simp [hyk, hxk]

lemma sortAsc_go_sorted :
    ∀ (l acc : Ranked), acc.Pairwise (fun a b => a.2 ≤ b.2) →
      (l.foldl (fun a x => insertAsc x a) acc).Pairwise (fun a b => a.2 ≤ b.2) := by
  intro l
  induction l with
  | nil => intro acc h; exact h
  | cons x xs ih =>
    intro acc h
    rw [List.foldl_cons]
    exact ih _ (sorted_insertAsc x acc h)

lemma sortAsc_go_filter (k : Nat) :
    ∀ (l acc : Ranked), acc.Pairwise (fun a b => a.2 ≤ b.2) →
      (l.foldl (fun a x => insertAsc x a) acc).filter (fun p => p.2 == k)
        = acc.filter (fun p => p.2 == k) ++ l.filter (fun p => p.2 == k) := by
  intro l
  induction l with
  | nil => intro acc h; simp
  | cons x xs ih =>
    intro acc h
    rw [List.foldl_cons, ih _ (sorted_insertAsc x acc h), filter_insertAsc k x acc h,
      List.filter_cons]
    by_cases hxk : (x.2 == k) = true <;> simp [hxk]

/-- The sort of the ranker is ascending in score. -/
lemma sortAsc_sorted (l : Ranked) : (sortAsc l).Pairwise (fun a b => a.2 ≤ b.2) :=
  sortAsc_go_sorted l [] List.Pairwise.nil

/-- The sort of the ranker is stable: the entries of any one score keep
their relative order. -/
lemma sortAsc_filter (l : Ranked) (k : Nat) :
    (sortAsc l).filter (fun p => p.2 == k) = l.filter (fun p => p.2 == k) := by
  simpa using sortAsc_go_filter k l [] List.Pairwise.nil

lemma keptTs_eq_nil_iff (score : String → Nat) (ts : List (String × List String)) :
    keptTs score ts = [] ↔ ∀ p ∈ ts, ∀ sel ∈ p.2, score sel = 0 := by
  unfold keptTs
  rw [List.filter_eq_nil_iff]
  constructor
  · intro h p hp sel hsel
    have h2 := h p hp
    simp only [List.any_eq_true, not_exists, not_and] at h2
    have h3 := h2 sel hsel
    simpa using h3
  · intro h p hp
    simp only [List.any_eq_true, not_exists, not_and]
    intro sel hsel
    simpa using h p hp sel hsel

lemma transformations_eq_spec (score : String → Nat) (ts : List (String × List String))
    (hnd : (ts.map Prod.fst).Nodup) :
    transformations score ts = rankerSpec score ts := by
  unfold transformations rankerSpec
  rw [rankedOf_eq score ts hnd]
  have hiff : keptRanked score ts = [] ↔ keptTs score ts = [] := by
    unfold keptRanked
    exact List.map_eq_nil_iff
  by_cases h : keptTs score ts = []
  · rw [if_pos (hiff.mpr h), if_pos h]
  · rw [if_neg (fun hc => h (hiff.mp hc)), if_neg h]

lemma transformations_none_iff (score : String → Nat) (ts : List (String × List String))
    (hnd : (ts.map Prod.fst).Nodup) :
    transformations score ts = none ↔ ∀ p ∈ ts, ∀ sel ∈ p.2, score sel = 0 := by
  rw [← keptTs_eq_nil_iff score ts]
  unfold transformations
  rw [rankedOf_eq score ts hnd]
  have hiff : keptRanked score ts = [] ↔ keptTs score ts = [] := by
    unfold keptRanked
    exact List.map_eq_nil_iff
  by_cases h : keptTs score ts = []
  · rw [if_pos (hiff.mpr h)]
    simp [h]
  · rw [if_neg (fun hc => h (hiff.mp hc))]
    simp [h]

/-- The executor run: build the command, invoke the converter on the
document text, abort on a non-empty diagnostic stream, and otherwise
record the buffer routing of the result. -/
def run (pandoc : String) (score : String → Nat) (formatFile : List String)
    (tmpName : String) (converter : List String → String → String × String)
    (t : Transformation) (contents : String) :
    Except PandocError (List String × List BufferEffect) :=
  match buildCmd pandoc score t formatFile tmpName with
  | Except.error e => Except.error e
  | Except.ok cmd =>
    let out := converter cmd contents
    if out.2 = "" then
      Except.ok (cmd,
        if out.1 = "" then []
        else
          (if t.newBuffer then [BufferEffect.newFile] else [])
            ++ [BufferEffect.replaceAll t.newBuffer out.1, BufferEffect.setSyn t.synFile])
    else Except.error (PandocError.conversion cmd out.2)

/-!
`PromptPandocCommand.transform` of Pandoc.py (lines 71-77): the callback of
the quick panel, receiving the selected index into the ranked option list.
Index `-1` returns immediately; any other index is used as a Python list
subscript, where a negative index counts from the end of the list and an
index at or past the length raises an `IndexError`.
-/

/-- Python list subscript with an integer index. -/
def pyGet (l : List String) (i : Int) : Option String :=
  if 0 ≤ i then l.get? i.toNat
  else if 0 ≤ i + l.length then l.get? (i + l.length).toNat
  else none

inductive TransformAction where
  | cancelled
  | runLabel (label : String)
  | indexError
deriving DecidableEq

/-- The quick-panel callback: what happens for a selected index. -/
def transform (options : List String) (i : Int) : TransformAction :=
  if i = -1 then TransformAction.cancelled
  else
    match pyGet options i with
    | some label => TransformAction.runLabel label
    | none => TransformAction.indexError

/-!
Fixtures for the witness theorems, after testable property 3 of the spec:
three transformations A, B, C in mapping order whose single selectors score
5, 5 and 3 against the current document.
-/

def exScore : String → Nat := fun sel =>
  if sel = "text.a" then 5 else if sel = "text.b" then 5 else if sel = "text.c" then 3 else 0

def exTs : List (String × List String) :=
  [("A", ["text.a"]), ("B", ["text.b"]), ("C", ["text.c"])]

/-- Claim C1: the ranker keeps, for every transformation, the maximum of
the scores of its selectors, skipping zero scores; it fails (NoMatchError)
exactly when no transformation retains a non-zero score, and otherwise
returns the names sorted ascending by best score with a stable sort and
then reversed, so among equal scores the transformation iterated later in
the mapping appears first. -/
theorem ranker_C1 (score : String → Nat) (ts : List (String × List String))
    (hnd : (ts.map Prod.fst).Nodup) :
    transformations score ts = rankerSpec score ts
    ∧ (transformations score ts = none ↔ ∀ p ∈ ts, ∀ sel ∈ p.2, score sel = 0)
    ∧ (sortAsc (rankedOf score ts)).Pairwise (fun a b => a.2 ≤ b.2)
    ∧ ∀ k, (sortAsc (rankedOf score ts)).filter (fun p => p.2 == k)
        = (rankedOf score ts).filter (fun p => p.2 == k) :=
  ⟨transformations_eq_spec score ts hnd, transformations_none_iff score ts hnd,
    sortAsc_sorted _, fun k => sortAsc_filter _ k⟩

/-- Witness for C1 on the fixture of testable property 3 of the spec:
scores A=5, B=5, C=3 in mapping order A,B,C rank as B, A, C. -/
theorem ranker_C1_witness :
    transformations exScore exTs = rankerSpec exScore exTs
    ∧ transformations exScore exTs = some ["B", "A", "C"] :=
  ⟨(ranker_C1 exScore exTs (by decide)).1, by decide⟩

/-- Claim C2: `get` scans left to right with anchored whole-token matching
(`-tex` does not match short spelling `t`); a matched short flag returns
the immediately following token even if it looks like a flag; a long
`--key=value` token with non-empty value returns the value; the earliest
match wins with the pending-value check before the long check; null when
no token matches.  The state-machine loop equals the direct spec scan. -/
theorem args_get_C2 :
    (∀ (args : List String) (short long : Option (List String)),
        Args.get args short long = getSpec short long args)
    ∧ Args.get ["-tex"] (some ["t"]) none = none
    ∧ Args.get ["-t", "--to=x"] (some ["t"]) (some ["to"]) = some "--to=x"
    ∧ Args.get ["--to=", "--write=rst"] none (some ["to", "write"]) = some "rst" :=
  ⟨get_eq_spec, by decide, by decide, by decide⟩

/-- Claim C3: `remove` is pure and builds a new vector omitting matched
short flags together with their following token (the follower kept exactly
when a values filter is supplied and does not list it) and omitting
matched long tokens entirely, all other tokens passing through in order:
the loop equals the direct spec scan. -/
theorem args_remove_C3 :
    (∀ (args : List String) (short long values : Option (List String)),
        Args.remove args short long values = removeSpec short long values args)
    ∧ Args.remove ["-t", "pdf", "-t", "html", "--to=pdf", "x"]
        (some ["t"]) (some ["to"]) (some ["pdf"]) = ["html", "x"]
    ∧ Args.remove ["-t", "pdf", "x"] (some ["t"]) none none = ["x"] :=
  ⟨remove_eq_spec, by decide, by decide⟩

/-- Claim C4: input-format resolution picks the format of the strictly
highest-scoring scope entry, later entries replacing earlier ones only on
a strictly greater score (ties keep the first seen); an empty scope — or
one with no positive score — leaves the format unresolved, failing the
run with NoScopeMatchError, and the `-f` flag is emitted exactly when a
format was resolved. -/
theorem input_format_C4 :
    (∀ (score : String → Nat) (scope : List (String × String)),
        resolveFrom score scope = resolveSpec score scope)
    ∧ (∀ (pandoc : String) (score : String → Nat) (t : Transformation)
          (formatFile : List String) (tmpName : String), t.scope = [] →
        buildCmd pandoc score t formatFile tmpName = Except.error PandocError.noScopeMatch)
    ∧ (∀ (pandoc : String) (score : String → Nat) (t : Transformation)
          (formatFile : List String) (tmpName : String),
        resolveFrom score t.scope = none →
        buildCmd pandoc score t formatFile tmpName = Except.error PandocError.noScopeMatch)
    ∧ (∀ (pandoc : String) (score : String → Nat) (t : Transformation)
          (formatFile : List String) (tmpName : String) (f : String),
        resolveFrom score t.scope = some f →
        buildCmd pandoc score t formatFile tmpName
          = Except.ok (pandoc :: "-f" :: f :: finalArgs t formatFile tmpName)) := by
  refine ⟨resolveFrom_eq_spec, ?_, ?_, ?_⟩
  · intro pandoc score t ff tmp hscope
    unfold buildCmd
    rw [hscope]
    rfl
  · intro pandoc score t ff tmp hnone
    unfold buildCmd
    rw [hnone]
  · intro pandoc score t ff tmp f hsome
    unfold buildCmd
    rw [hsome]

/-- Witness for C4: a transformation with an empty scope fails the run
with NoScopeMatchError. -/
theorem input_format_C4_witness :
    buildCmd "pandoc" (fun _ => 0) (Transformation.mk [] [] false "hl") [] "T"
      = Except.error PandocError.noScopeMatch :=
  input_format_C4.2.1 "pandoc" (fun _ => 0) (Transformation.mk [] [] false "hl") [] "T" rfl

/-- Claim C5: a non-empty diagnostic stream aborts the run with a
conversion error carrying the full invoked command line and the diagnostic
text; the aborted run performs no buffer effect (the error outcome carries
no effect list, mirroring the early return of the source). -/
theorem conversion_error_C5 (pandoc : String) (score : String → Nat)
    (formatFile : List String) (tmpName : String)
    (converter : List String → String → String × String)
    (t : Transformation) (contents : String) (cmd : List String)
    (hcmd : buildCmd pandoc score t formatFile tmpName = Except.ok cmd)
    (hdiag : (converter cmd contents).2 ≠ "") :
    run pandoc score formatFile tmpName converter t contents
      = Except.error (PandocError.conversion cmd (converter cmd contents).2) := by
  unfold run
  rw [hcmd]
  simp [hdiag]

/-- Witness for C5: a stub converter that writes a diagnostic aborts the
run with the invoked command line and the diagnostic text. -/
theorem conversion_error_C5_witness :
    run "pandoc" (fun _ => 1) [] "T" (fun _ _ => ("", "boom"))
        (Transformation.mk [("source.md", "markdown")] [] false "hl") "doc"
      = Except.error (PandocError.conversion ["pandoc", "-f", "markdown"] "boom") :=
  conversion_error_C5 "pandoc" (fun _ => 1) [] "T" (fun _ _ => ("", "boom"))
    (Transformation.mk [("source.md", "markdown")] [] false "hl") "doc"
    ["pandoc", "-f", "markdown"] rfl (by decide)

/-- Claim C6 counterexample: with resolved output format `pdf`, a
`--to=pdf` occurrence sitting in value position of a preceding `-t` flag
survives the removal, so not every matching occurrence is removed. -/
theorem pdf_removal_C6_cex :
    Args.get ["--to=pdf", "-t", "--to=pdf"] (some ["t", "w"]) (some ["to", "write"])
        = some "pdf"
    ∧ "--to=pdf" ∈ Args.remove ["--to=pdf", "-t", "--to=pdf"]
        (some ["t", "w"]) (some ["to", "write"]) (some ["pdf"])
    ∧ finalArgs (Transformation.mk [("s", "markdown")] ["--to=pdf", "-t", "--to=pdf"] true "hl")
        [] "T" = ["--to=pdf"] :=
  ⟨by decide, by decide, by decide⟩

/-- Claim C6 as amended: when the resolved output format is `pdf`, the
vector is filtered by `remove` with short spellings t, w, long spellings
to, write and values filter pdf; provided no flag token stands in the
value position of a preceding `-t`/`-w` flag, every `-t`, `-w`, `--to=pdf`
and `--write=pdf` token — hence every `-t pdf`, `-w pdf`, `--to=pdf`,
`--write=pdf` occurrence — is removed; in particular the argument list
-f markdown -t pdf resolves to output format pdf and its final argument
list keeps no `-t pdf` pair. -/
theorem pdf_removal_C6_amended (args : List String)
    (hclean : noFlagValues (some ["t", "w"]) (some ["to", "write"]) args = true)
    (hpdf : Args.get args (some ["t", "w"]) (some ["to", "write"]) = some "pdf") :
    (∀ x ∈ (if Args.get args (some ["t", "w"]) (some ["to", "write"]) = some "pdf"
            then Args.remove args (some ["t", "w"]) (some ["to", "write"]) (some ["pdf"])
            else args),
        x ≠ "-t" ∧ x ≠ "-w" ∧ x ≠ "--to=pdf" ∧ x ≠ "--write=pdf")
    ∧ Args.get ["-f", "markdown", "-t", "pdf"] (some ["t", "w"]) (some ["to", "write"])
        = some "pdf"
    ∧ finalArgs (Transformation.mk [("s", "markdown")] ["-f", "markdown", "-t", "pdf"] true "hl")
        ["pdf"] "T" = ["-f", "markdown", "-o", "T.pdf"] := by
  refine ⟨?_, by decide, by decide⟩
  rw [if_pos hpdf]
  intro x hx
  have hc := remove_clean args (some ["t", "w"]) (some ["to", "write"]) (some ["pdf"]) hclean x hx
  refine ⟨?_, ?_, ?_, ?_⟩ <;> rintro rfl
  · exact absurd hc (by decide)
  · exact absurd hc (by decide)
  · exact absurd hc (by decide)
  · exact absurd hc (by decide)

/-- Witness for the amended C6 on the argument list of testable property 6
of the spec. -/
theorem pdf_removal_C6_witness :
    Args.get ["-f", "markdown", "-t", "pdf"] (some ["t", "w"]) (some ["to", "write"])
        = some "pdf"
    ∧ finalArgs (Transformation.mk [("s", "markdown")] ["-f", "markdown", "-t", "pdf"] true "hl")
        ["pdf"] "T" = ["-f", "markdown", "-o", "T.pdf"] :=
  (pdf_removal_C6_amended ["-f", "markdown", "-t", "pdf"] (by decide) (by decide)).2

/-- Claim C7 counterexample: with a values filter, `remove` is not
idempotent — a kept value token that is itself a flag is consumed by the
second application. -/
theorem remove_idem_C7_cex :
    Args.remove (Args.remove ["-t", "-t", "pdf"] (some ["t"]) none (some ["pdf"]))
        (some ["t"]) none (some ["pdf"])
      ≠ Args.remove ["-t", "-t", "pdf"] (some ["t"]) none (some ["pdf"]) := by decide

/-- Claim C7 as amended: `remove` is idempotent when no values filter is
supplied; with a values filter a kept value token may itself be a flag
token that the second application consumes. -/
theorem remove_idem_C7_amended (args : List String) (short long : Option (List String)) :
    Args.remove (Args.remove args short long none) short long none
      = Args.remove args short long none :=
  removeAux_id short long none (Args.remove args short long none)
    (removeAux_none_clean short long args false)

/-- Claim C8: on a vector whose flag value positions hold no flag tokens,
`remove` leaves no token matching the given short or long spellings, and
`get` with the same spellings on the result returns null. -/
theorem get_remove_C8 (args : List String) (short long values : Option (List String))
    (h : noFlagValues short long args = true) :
    (∀ x ∈ Args.remove args short long values,
        shortMatchO short x = false ∧ longMatchO long x = none)
    ∧ Args.get (Args.remove args short long values) short long = none :=
  ⟨remove_clean args short long values h,
    getAux_none_of_clean short long _ (remove_clean args short long values h)⟩

/-- Witness for C8. -/
theorem get_remove_C8_witness :
    noFlagValues (some ["t"]) (some ["to"]) ["-t", "pdf", "--to=x", "y"] = true
    ∧ Args.get (Args.remove ["-t", "pdf", "--to=x", "y"] (some ["t"]) (some ["to"]) none)
        (some ["t"]) (some ["to"]) = none :=
  ⟨by decide,
    (get_remove_C8 ["-t", "pdf", "--to=x", "y"] (some ["t"]) (some ["to"]) none (by decide)).2⟩

/-- Claim C9 counterexample: out-of-range indices other than -1 are not
no-ops — index -2 on a two-element list runs the first transformation
(Python indexing from the end), and index 2 raises an index error. -/
theorem transform_C9_cex :
    transform ["A", "B"] (-2) = TransformAction.runLabel "A"
    ∧ transform ["A", "B"] 2 = TransformAction.indexError := by decide

/-- Claim C9 as amended: selecting index -1 signals user cancellation and
is a no-op producing no message; other out-of-range indices are not
cancellation — an index at or past the list length, or below minus the
length, raises an index error, and a negative in-range index selects from
the end of the list. -/
theorem transform_C9_amended :
    (∀ options : List String, transform options (-1) = TransformAction.cancelled)
    ∧ (∀ (options : List String) (i : Int), (options.length : Int) ≤ i →
        transform options i = TransformAction.indexError)
    ∧ (∀ (options : List String) (i : Int), i ≠ -1 → i + (options.length : Int) < 0 →
        transform options i = TransformAction.indexError) := by
  refine ⟨?_, ?_, ?_⟩
  · intro options
    simp [transform]
  · intro options i hi
    have hne : i ≠ -1 := by omega
    have h0 : (0 : Int) ≤ i := by omega
    have hlen : options.length ≤ i.toNat := by omega
    unfold transform pyGet
    rw [if_neg hne, if_pos h0, List.get?_eq_none.mpr hlen]
  · intro options i hne hi
    unfold transform pyGet
    rw [if_neg hne, if_neg (by omega), if_neg (by omega)]

/-- Witness for the amended C9. -/
theorem transform_C9_witness :
    transform ["A"] (-1) = TransformAction.cancelled
    ∧ transform ["A"] 5 = TransformAction.indexError
    ∧ transform ["A"] (-3) = TransformAction.indexError :=
  ⟨transform_C9_amended.1 ["A"],
    transform_C9_amended.2.1 ["A"] 5 (by decide),
    transform_C9_amended.2.2 ["A"] (-3) (by decide) (by decide)⟩

/-- Claim C10 counterexample: a vector whose last token matches a short
spelling can still make `get` return a value, through an earlier match. -/
theorem get_trailing_C10_cex :
    shortMatchO (some ["t"]) "-t" = true
    ∧ Args.get ["--to=x", "-t"] (some ["t"]) (some ["to"]) = some "x" := by decide

/-- Claim C10 as amended: when the last token exactly matches a short
spelling, no token follows it, and no earlier token matches any short or
long spelling, `get` returns null — the pending-value state set on the
final token is discarded when iteration ends. -/
theorem get_trailing_C10_amended (start : List String) (lastTok : String)
    (short long : Option (List String))
    (hmatch : shortMatchO short lastTok = true)
    (hclean : ∀ x ∈ start, shortMatchO short x = false ∧ longMatchO long x = none) :
    Args.get (start ++ [lastTok]) short long = none :=
  get_trailing_none short long start lastTok hmatch hclean

/-- Witness for the amended C10. -/
theorem get_trailing_C10_witness :
    Args.get (["file.txt"] ++ ["-t"]) (some ["t"]) (some ["to"]) = none :=
  get_trailing_C10_amended ["file.txt"] "-t" (some ["t"]) (some ["to"]) (by decide) (by decide)

end Pandoc
